import Mathlib

/-!
Verification of the A* path-finding implementation in `ASTAR.py`.

The Python source is shallowly embedded: Python dicts become association
lists read by first-match lookup, the `heapq` priority queue becomes an
executable translation of CPython's `heappush`/`heappop` (binary heap over
a list, sift-up / sift-down), floats become rationals, and the `while`
loops become fuel-indexed recursion.  `a_star` returns `AResult`:
`.ok (path?, cost)` for a normal return, `.keyError` when a strict dict
indexing (`g_score[current]`) would raise, `.fuelOut` when the fuel is
exhausted.
-/

namespace AStarVerif

abbrev Node := String

abbrev Weight := ℚ

/-- An adjacency dict `{neighbor: cost, ...}` in iteration (insertion) order. -/
abbrev Adj := List (Node × Weight)

/-- The graph dict: node -> adjacency dict. -/
abbrev Graph := List (Node × Adj)

/-- The heuristic dict node -> estimate. -/
abbrev HTable := List (Node × Weight)

/-- The `g_score` dict node -> best known cost from start. -/
abbrev GScore := List (Node × Weight)

/-- The `came_from` dict node -> predecessor (`None` for the start). -/
abbrev CameFrom := List (Node × Option Node)

/-- A priority-queue entry `(f_score, node)`. -/
abbrev Entry := Weight × Node

/-- The `open_set` list managed by `heappush`/`heappop`. -/
abbrev Heap := List Entry

/-- First-match lookup: reading a Python dict. -/
def dictGet? {α : Type} (d : List (Node × α)) (k : Node) : Option α :=
  match d with
  | [] => none
  | (k', v) :: rest => if k' = k then some v else dictGet? rest k

/-- Python `d[k] = v`: overwrite in place (keys keep their insertion slot),
append when the key is new. -/
def dictInsert {α : Type} (d : List (Node × α)) (k : Node) (v : α) :
    List (Node × α) :=
  match d with
  | [] => [(k, v)]
  | (k', v') :: rest =>
      if k' = k then (k, v) :: rest else (k', v') :: dictInsert rest k v

/-- Python `h.get(n, 0)` as read by the source. -/
def hGet (h : HTable) (n : Node) : Weight := (dictGet? h n).getD 0

/-- Python `<` on strings: lexicographic comparison of code points. -/
def charsLt : List Char → List Char → Bool
  | _, [] => false
  | [], _ :: _ => true
  | a :: as, b :: bs =>
      if a < b then true else if b < a then false else charsLt as bs

/-- Python `<` on node identifiers. -/
def strLt (a b : Node) : Bool := charsLt a.data b.data

/-- Python `<` on the `(f_score, node)` tuples pushed onto the heap:
lexicographic on the number, then on the node string. -/
def entryLt (a b : Entry) : Bool :=
  decide (a.1 < b.1) || (decide (a.1 = b.1) && strLt a.2 b.2)

/-- The loop of CPython `heapq._siftdown(heap, startpos, pos)` (move
`newitem` towards the root).  The first argument bounds the number of
remaining climbs; each step moves to `(pos - 1) / 2 < pos`, so the initial
bound `pos` is never exhausted while `startpos < pos` holds. -/
def siftdownGo : Nat → Heap → Nat → Nat → Entry → Heap
  | 0, heap, _, pos, newitem => heap.set pos newitem
  | climbs + 1, heap, startpos, pos, newitem =>
      if startpos < pos then
        let parentpos := (pos - 1) / 2
        let parent := heap.getD parentpos newitem
        if entryLt newitem parent then
          siftdownGo climbs (heap.set pos parent) startpos parentpos newitem
        else
          heap.set pos newitem
      else
        heap.set pos newitem

/-- CPython `heapq._siftdown(heap, startpos, pos)`. -/
def siftdownLoop (heap : Heap) (startpos pos : Nat) (newitem : Entry) : Heap :=
  siftdownGo pos heap startpos pos newitem

/-- CPython `heapq.heappush(heap, item)`: append, then sift down from the
last slot. -/
def heappush (heap : Heap) (item : Entry) : Heap :=
  siftdownLoop (heap ++ [item]) 0 heap.length item

/-- The loop of CPython `heapq._siftup` (bubble the hole at `pos` to a leaf,
following the smaller child); returns the heap and the final position.  The
first argument bounds the number of remaining descents; each step moves to a
child index `< endpos`, strictly larger than `pos`, so the initial bound
`endpos` is never exhausted. -/
def siftupGo : Nat → Nat → Heap → Nat → Entry → Heap × Nat
  | 0, _, heap, pos, _ => (heap, pos)
  | descents + 1, endpos, heap, pos, newitem =>
      let childpos := 2 * pos + 1
      if childpos < endpos then
        let rightpos := childpos + 1
        let childpos2 :=
          if rightpos < endpos &&
              !(entryLt (heap.getD childpos newitem) (heap.getD rightpos newitem))
          then rightpos else childpos
        siftupGo descents endpos (heap.set pos (heap.getD childpos2 newitem))
          childpos2 newitem
      else
        (heap, pos)

/-- The descent loop of CPython `heapq._siftup(heap, pos)`. -/
def siftupLoop (endpos : Nat) (heap : Heap) (pos : Nat) (newitem : Entry) :
    Heap × Nat :=
  siftupGo endpos endpos heap pos newitem

/-- CPython `heapq._siftup(heap, pos)`. -/
def siftup (heap : Heap) (pos : Nat) : Heap :=
  let newitem := heap.getD pos ((0 : Weight), "")
  let hp := siftupLoop heap.length heap pos newitem
  siftdownLoop (hp.1.set hp.2 newitem) pos hp.2 newitem

/-- CPython `heapq.heappop(heap)`: pop the last slot; when entries remain,
return the root, move the last element there and sift up.  `none` models the
`IndexError` on an empty list (the source only pops under `while open_set`). -/
def heappop (heap : Heap) : Option (Entry × Heap) :=
  match heap.getLast? with
  | none => none
  | some lastelt =>
      let rest := heap.dropLast
      if rest.length = 0 then some (lastelt, rest)
      else some (rest.getD 0 lastelt, siftup (rest.set 0 lastelt) 0)

/-- Outcome of `a_star`: a normal Python return carries the optional path
and the cost (`⊤` embeds `float('inf')`); `keyError` marks a raising dict
subscript `g_score[...]`; `fuelOut` marks fuel exhaustion of the embedding. -/
inductive AResult where
  | ok : Option (List Node) × WithTop Weight → AResult
  | keyError : AResult
  | fuelOut : AResult
deriving DecidableEq

/-- State threaded through the relaxation of one node's outgoing edges:
`came_from`, `g_score` and `open_set`. -/
abbrev RState := CameFrom × GScore × Heap

/-- The body of the `for neigh, cost in neighbors.items()` loop (lines 63-72
of `ASTAR.py`) for a single `(neigh, cost)` pair, given the value `gcur`
just read from `g_score[current]`. -/
def relaxOne (h : HTable) (current : Node) (gcur : Weight) (st : RState)
    (nc : Node × Weight) : RState :=
  let tentative := gcur + nc.2
  let upd : RState :=
    (dictInsert st.1 nc.1 (some current),
     dictInsert st.2.1 nc.1 tentative,
     heappush st.2.2 (tentative + hGet h nc.1, nc.1))
  match dictGet? st.2.1 nc.1 with
  | some gn => if gn ≤ tentative then st else upd
  | none => upd

/-- The full neighbor loop.  `g_score[current]` is re-read on every
iteration, as in line 64 of the source; a missing key is a `KeyError`,
reported as `none`. -/
def relaxList (h : HTable) (current : Node) (nbrs : List (Node × Weight))
    (st : RState) : Option RState :=
  match nbrs with
  | [] => some st
  | nc :: rest =>
      match dictGet? st.2.1 current with
      | none => none
      | some gcur => relaxList h current rest (relaxOne h current gcur st nc)

/-- The `while node is not None` reconstruction loop (lines 50-54): append
the node, follow `came_from.get(node)`.  Returns the path in visit order
(goal first); the caller reverses it.  `none` when the fuel runs out. -/
def reconstructRaw : Nat → CameFrom → Node → List Node → Option (List Node)
  | 0, _, _, _ => none
  | fuel + 1, came, node, acc =>
      match (dictGet? came node).getD none with
      | none => some (acc ++ [node])
      | some nxt => reconstructRaw fuel came nxt (acc ++ [node])

/-- The `while open_set:` loop of `a_star` (lines 45-72), fuel-indexed. -/
def aLoop (graph : Graph) (h : HTable) (goal : Node) :
    Nat → CameFrom → GScore → List Node → Heap → AResult
  | 0, _, _, _, _ => .fuelOut
  | fuel + 1, came, g, closed, open_set =>
      match heappop open_set with
      | none => .ok (none, ⊤)
      | some (fc, rest) =>
          let current := fc.2
          if current = goal then
            match reconstructRaw (came.length + 1) came current [] with
            | none => .fuelOut
            | some p =>
                match dictGet? g current with
                | none => .keyError
                | some gcur => .ok (some p.reverse, (gcur : WithTop Weight))
          else if current ∈ closed then
            aLoop graph h goal fuel came g closed rest
          else
            let nbrs := (dictGet? graph current).getD []
            match relaxList h current nbrs (came, g, rest) with
            | none => .keyError
            | some st =>
                aLoop graph h goal fuel st.1 st.2.1 (closed ++ [current]) st.2.2

/-- Total number of edge slots in the adjacency structure; each node is
expanded at most once, so `totalEdges + 2` pops bound the search. -/
def totalEdges (graph : Graph) : Nat :=
  (graph.map (fun p => p.2.length)).sum

/-- Fuel sufficient for the whole search (proved below). -/
def astarFuel (graph : Graph) : Nat := totalEdges graph + 2

/-- The embedding of `a_star(graph, h, start, goal)` (lines 24-75 of
`ASTAR.py`). -/
def a_star (graph : Graph) (h : HTable) (start goal : Node) : AResult :=
  aLoop graph h goal (astarFuel graph)
    [(start, none)] [(start, 0)] [] (heappush [] (hGet h start, start))

/-! ## Path semantics used to state the claims -/

/-- Weight of the edge `a → b`, read from the adjacency structure the same
way the search reads it. -/
def edgeW (graph : Graph) (a b : Node) : Option Weight :=
  dictGet? ((dictGet? graph a).getD []) b

/-- Total weight of a node sequence: `some` when every consecutive pair is
an edge of the graph (a single node is a path of cost `0`). -/
def pathCost (graph : Graph) : List Node → Option Weight
  | [] => none
  | [_] => some 0
  | a :: b :: rest =>
      match edgeW graph a b, pathCost graph (b :: rest) with
      | some w, some c => some (w + c)
      | _, _ => none

/-- Predicate: `p` is a path from `s` to `t` through edges of `graph`. -/
def IsPathFrom (graph : Graph) (s t : Node) (p : List Node) : Prop :=
  p.head? = some s ∧ p.getLast? = some t ∧ (pathCost graph p).isSome

/-- There is an edge `u → v` (of any weight) in the adjacency structure. -/
def EdgeTo (graph : Graph) (u v : Node) : Prop :=
  ∃ adj w, dictGet? graph u = some adj ∧ (v, w) ∈ adj

/-- Predicate: `t` is reachable from `s` by a sequence of outgoing edges. -/
inductive Reaches (graph : Graph) (s : Node) : Node → Prop where
  | refl : Reaches graph s s
  | step {u v : Node} : Reaches graph s u → EdgeTo graph u v → Reaches graph s v

/-- Every edge weight in the graph is non-negative. -/
def NonnegGraph (graph : Graph) : Prop :=
  ∀ p ∈ graph, ∀ q ∈ p.2, (0 : Weight) ≤ q.2

instance (graph : Graph) : Decidable (NonnegGraph graph) := by
  unfold NonnegGraph
  infer_instance

instance (graph : Graph) (s t : Node) (p : List Node) :
    Decidable (IsPathFrom graph s t p) := by
  unfold IsPathFrom
  infer_instance

/-! ## Concrete graphs -/

/-- The reference graph transcribed in `main` (lines 80-91). -/
def refGraph : Graph :=
  [("S", [("A", 3), ("B", 1), ("C", 5)]),
   ("A", [("E", 7), ("G1", 10)]),
   ("B", [("C", 2), ("F", 2)]),
   ("C", [("G3", 11)]),
   ("D", [("B", 4), ("S", 6), ("G2", 5)]),
   ("E", [("G1", 2)]),
   ("F", [("D", 1)]),
   ("G1", []),
   ("G2", []),
   ("G3", [("F", 0)])]

/-- The heuristic table of `main` (lines 93-104). -/
def refH : HTable :=
  [("S", 8), ("A", 9), ("B", 1), ("C", 3), ("D", 4),
   ("E", 1), ("F", 5), ("G1", 0), ("G2", 0), ("G3", 3)]

/-- A four-node graph with positive weights on which the closed-set skip
loses optimality: the cheapest route `S → B → A → G` costs `5`. -/
def bugGraph : Graph :=
  [("S", [("A", 4), ("B", 2)]),
   ("A", [("G", 2)]),
   ("B", [("A", 1)]),
   ("G", [])]

/-- An admissible heuristic for `bugGraph` with goal `G` (each value is at
most the true remaining cost: `S:5, A:2, B:3, G:0`). -/
def bugH : HTable := [("S", 0), ("A", 0), ("B", 2), ("G", 0)]

/-! ## Dijkstra's algorithm, the spec's reference point for claim C6.
Modelled from the spec: best-first search with the same lazy-deletion
priority queue and tie-break rule, with the estimated total cost equal to
the tentative distance alone (the zero heuristic). -/

/-- One edge relaxation of Dijkstra's algorithm: identical bookkeeping,
priority `tentative` instead of `tentative + h(neigh)`. -/
def dijRelaxOne (current : Node) (gcur : Weight) (st : RState)
    (nc : Node × Weight) : RState :=
  let tentative := gcur + nc.2
  let upd : RState :=
    (dictInsert st.1 nc.1 (some current),
     dictInsert st.2.1 nc.1 tentative,
     heappush st.2.2 (tentative, nc.1))
  match dictGet? st.2.1 nc.1 with
  | some gn => if gn ≤ tentative then st else upd
  | none => upd

/-- Dijkstra's neighbor loop. -/
def dijRelaxList (current : Node) (nbrs : List (Node × Weight)) (st : RState) :
    Option RState :=
  match nbrs with
  | [] => some st
  | nc :: rest =>
      match dictGet? st.2.1 current with
      | none => none
      | some gcur => dijRelaxList current rest (dijRelaxOne current gcur st nc)

/-- Dijkstra's main loop, structurally the loop of `a_star` with priorities
equal to the tentative distances. -/
def dijLoop (graph : Graph) (goal : Node) :
    Nat → CameFrom → GScore → List Node → Heap → AResult
  | 0, _, _, _, _ => .fuelOut
  | fuel + 1, came, g, closed, open_set =>
      match heappop open_set with
      | none => .ok (none, ⊤)
      | some (fc, rest) =>
          let current := fc.2
          if current = goal then
            match reconstructRaw (came.length + 1) came current [] with
            | none => .fuelOut
            | some p =>
                match dictGet? g current with
                | none => .keyError
                | some gcur => .ok (some p.reverse, (gcur : WithTop Weight))
          else if current ∈ closed then
            dijLoop graph goal fuel came g closed rest
          else
            let nbrs := (dictGet? graph current).getD []
            match dijRelaxList current nbrs (came, g, rest) with
            | none => .keyError
            | some st =>
                dijLoop graph goal fuel st.1 st.2.1 (closed ++ [current]) st.2.2

/-- Dijkstra's shortest-path search from `start` to `goal` with the same
tie-break rule as `a_star`: the start is seeded at distance `0`. -/
def dijkstra (graph : Graph) (start goal : Node) : AResult :=
  dijLoop graph goal (astarFuel graph)
    [(start, none)] [(start, 0)] [] (heappush [] (0, start))

/-! ## The search with the input dicts threaded as state.
Each access the source performs on its `graph` and `h` arguments is a
non-mutating read (`graph.get`, `.items()`, `h.get`); the embedding below
makes that explicit by passing the pair of input dicts through every
operation and returning it at the end, so that preservation of the inputs
is a stated property rather than a convention of the pure embedding. -/

/-- The input dicts of one call: the graph and the heuristic table. -/
abbrev Env := Graph × HTable

/-- Python `graph.get(current, {})` as a read on the environment. -/
def envGraphGet (env : Env) (k : Node) : Option Adj × Env :=
  (dictGet? env.1 k, env)

/-- Python `h.get(n, 0)` as a read on the environment. -/
def envHGet (env : Env) (n : Node) : Weight × Env := (hGet env.2 n, env)

/-- The update half of one edge relaxation (lines 69-72), threading the
environment through the `h.get` read. -/
def relaxPushF (env : Env) (current : Node) (tentative : Weight)
    (st : RState) (neigh : Node) : Env × RState :=
  let hv := envHGet env neigh
  (hv.2,
   (dictInsert st.1 neigh (some current),
    dictInsert st.2.1 neigh tentative,
    heappush st.2.2 (tentative + hv.1, neigh)))

/-- One edge relaxation with the environment threaded. -/
def relaxOneF (env : Env) (current : Node) (gcur : Weight) (st : RState)
    (nc : Node × Weight) : Env × RState :=
  let tentative := gcur + nc.2
  match dictGet? st.2.1 nc.1 with
  | some gn =>
      if gn ≤ tentative then (env, st)
      else relaxPushF env current tentative st nc.1
  | none => relaxPushF env current tentative st nc.1

/-- The neighbor loop with the environment threaded. -/
def relaxListF (env : Env) (current : Node) (nbrs : List (Node × Weight))
    (st : RState) : Option (Env × RState) :=
  match nbrs with
  | [] => some (env, st)
  | nc :: rest =>
      match dictGet? st.2.1 current with
      | none => none
      | some gcur =>
          let es := relaxOneF env current gcur st nc
          relaxListF es.1 current rest es.2

/-- The main loop with the environment threaded. -/
def aLoopF (goal : Node) :
    Nat → Env → CameFrom → GScore → List Node → Heap → AResult × Env
  | 0, env, _, _, _, _ => (.fuelOut, env)
  | fuel + 1, env, came, g, closed, open_set =>
      match heappop open_set with
      | none => (.ok (none, ⊤), env)
      | some (fc, rest) =>
          let current := fc.2
          if current = goal then
            match reconstructRaw (came.length + 1) came current [] with
            | none => (.fuelOut, env)
            | some p =>
                match dictGet? g current with
                | none => (.keyError, env)
                | some gcur => (.ok (some p.reverse, (gcur : WithTop Weight)), env)
          else if current ∈ closed then
            aLoopF goal fuel env came g closed rest
          else
            let ge := envGraphGet env current
            let nbrs := ge.1.getD []
            match relaxListF ge.2 current nbrs (came, g, rest) with
            | none => (.keyError, ge.2)
            | some es =>
                aLoopF goal fuel es.1 es.2.1 es.2.2.1 (closed ++ [current]) es.2.2.2

/-- The search with its two input dicts threaded as explicit state and handed
back at the return. -/
def a_starF (graph : Graph) (h : HTable) (start goal : Node) : AResult × Env :=
  let env : Env := (graph, h)
  let hv := envHGet env start
  aLoopF goal (astarFuel graph) hv.2
    [(start, none)] [(start, 0)] [] (heappush [] (hv.1, start))

/-! ## Association-list (dict) lemmas -/

/-- The key list of a dict. -/
def dkeys {α : Type} (d : List (Node × α)) : List Node := d.map Prod.fst

theorem length_dkeys {α : Type} (d : List (Node × α)) :
    (dkeys d).length = d.length := List.length_map _ _

theorem dictGet?_insert_self {α : Type} (d : List (Node × α)) (k : Node)
    (v : α) : dictGet? (dictInsert d k v) k = some v := by
  induction d with
  | nil => simp [dictInsert, dictGet?]
  | cons p rest ih =>
      by_cases h : p.1 = k <;> simp [dictInsert, dictGet?, h, ih]

theorem dictGet?_insert_ne {α : Type} (d : List (Node × α)) (k k' : Node)
    (v : α) (h : k' ≠ k) :
    dictGet? (dictInsert d k v) k' = dictGet? d k' := by
  have hkk : ¬ k = k' := fun hh => h hh.symm
  induction d with
  | nil => simp only [dictInsert, dictGet?, if_neg hkk]
  | cons p rest ih =>
      simp only [dictInsert]
      by_cases hp : p.1 = k
      · rw [if_pos hp]
        simp only [dictGet?]
        rw [if_neg hkk, if_neg (hp ▸ hkk)]
      · rw [if_neg hp]
        simp only [dictGet?]
        by_cases hp' : p.1 = k'
        · rw [if_pos hp', if_pos hp']
        · rw [if_neg hp', if_neg hp', ih]

theorem isSome_dictGet?_insert {α : Type} (d : List (Node × α))
    (k k' : Node) (v : α) (h : (dictGet? d k').isSome) :
    (dictGet? (dictInsert d k v) k').isSome := by
  by_cases hk : k' = k
  · subst hk; rw [dictGet?_insert_self]; rfl
  · rwa [dictGet?_insert_ne _ _ _ _ hk]

theorem mem_dkeys_of_dictGet? {α : Type} {d : List (Node × α)} {k : Node}
    {v : α} (h : dictGet? d k = some v) : k ∈ dkeys d := by
  induction d with
  | nil => simp [dictGet?] at h
  | cons p rest ih =>
      by_cases hp : p.1 = k
      · simp [dkeys, hp.symm]
      · simp only [dictGet?, hp, if_false] at h
        simp [dkeys] at ih ⊢
        right
        exact ih h

/-! ## Heap lemmas: sizes and membership -/

theorem getD_mem_or (l : List Entry) (i : Nat) (d : Entry) :
    l.getD i d ∈ l ∨ l.getD i d = d := by
  rw [List.getD_eq_getElem?_getD]
  cases hx : l[i]? with
  | none => right; rfl
  | some a => left; simpa using List.getElem?_mem hx

theorem getD_mem_of_lt (l : List Entry) (i : Nat) (d : Entry)
    (h : i < l.length) : l.getD i d ∈ l := by
  rw [List.getD_eq_getElem?_getD, List.getElem?_eq_getElem h]
  exact List.getElem_mem _

theorem length_siftdownGo (climbs : Nat) :
    ∀ (heap : Heap) (sp pos : Nat) (ni : Entry),
      (siftdownGo climbs heap sp pos ni).length = heap.length := by
  induction climbs with
  | zero => intro heap sp pos ni; simp [siftdownGo]
  | succ n ih =>
      intro heap sp pos ni
      simp only [siftdownGo]
      split_ifs <;> simp [ih, List.length_set]

theorem mem_siftdownGo (climbs : Nat) :
    ∀ (heap : Heap) (sp pos : Nat) (ni x : Entry),
      x ∈ siftdownGo climbs heap sp pos ni → x ∈ heap ∨ x = ni := by
  induction climbs with
  | zero =>
      intro heap sp pos ni x hx
      simp only [siftdownGo] at hx
      rcases List.mem_or_eq_of_mem_set hx with h | h
      · exact .inl h
      · exact .inr h
  | succ n ih =>
      intro heap sp pos ni x hx
      simp only [siftdownGo] at hx
      split_ifs at hx with h1 h2
      · rcases ih _ _ _ _ _ hx with h | h
        · rcases List.mem_or_eq_of_mem_set h with h' | h'
          · exact .inl h'
          · rcases getD_mem_or heap ((pos - 1) / 2) ni with hm | hm
            · exact .inl (h' ▸ hm)
            · exact .inr (h' ▸ hm)
        · exact .inr h
      all_goals
        rcases List.mem_or_eq_of_mem_set hx with h | h
        · exact .inl h
        · exact .inr h

theorem length_heappush (heap : Heap) (item : Entry) :
    (heappush heap item).length = heap.length + 1 := by
  simp [heappush, siftdownLoop, length_siftdownGo]

theorem mem_heappush (heap : Heap) (item x : Entry)
    (hx : x ∈ heappush heap item) : x ∈ heap ∨ x = item := by
  rcases mem_siftdownGo _ _ _ _ _ _ hx with h | h
  · rcases List.mem_append.1 h with h' | h'
    · exact .inl h'
    · exact .inr (List.mem_singleton.1 h')
  · exact .inr h

theorem length_siftupGo (descents : Nat) :
    ∀ (ep : Nat) (heap : Heap) (pos : Nat) (ni : Entry),
      (siftupGo descents ep heap pos ni).1.length = heap.length := by
  induction descents with
  | zero => intro ep heap pos ni; simp [siftupGo]
  | succ n ih =>
      intro ep heap pos ni
      simp only [siftupGo]
      split_ifs <;> simp [ih, List.length_set]

theorem mem_siftupGo (descents : Nat) :
    ∀ (ep : Nat) (heap : Heap) (pos : Nat) (ni x : Entry),
      x ∈ (siftupGo descents ep heap pos ni).1 → x ∈ heap ∨ x = ni := by
  induction descents with
  | zero => intro ep heap pos ni x hx; exact .inl hx
  | succ n ih =>
      intro ep heap pos ni x hx
      simp only [siftupGo] at hx
      split_ifs at hx
      all_goals try exact .inl hx
      all_goals
        rcases ih _ _ _ _ _ hx with h | h
        · rcases List.mem_or_eq_of_mem_set h with h' | h'
          · exact .inl h'
          · rcases getD_mem_or heap _ ni with hm | hm
            · exact .inl (h' ▸ hm)
            · exact .inr (h' ▸ hm)
        · exact .inr h

theorem length_siftup (heap : Heap) (pos : Nat) :
    (siftup heap pos).length = heap.length := by
  simp [siftup, siftupLoop, siftdownLoop, length_siftdownGo, List.length_set,
    length_siftupGo]

theorem mem_siftup (heap : Heap) (pos : Nat) (x : Entry)
    (hx : x ∈ siftup heap pos) :
    x ∈ heap ∨ x = heap.getD pos ((0 : Weight), "") := by
  rcases mem_siftdownGo _ _ _ _ _ _ hx with h | h
  · rcases List.mem_or_eq_of_mem_set h with h' | h'
    · rcases mem_siftupGo _ _ _ _ _ _ h' with h'' | h''
      · exact .inl h''
      · exact .inr h''
    · exact .inr h'
  · exact .inr h

theorem heappop_spec (heap : Heap) (e : Entry) (rest : Heap)
    (h : heappop heap = some (e, rest)) :
    e ∈ heap ∧ rest.length + 1 = heap.length ∧ ∀ x ∈ rest, x ∈ heap := by
  unfold heappop at h
  cases hl : heap.getLast? with
  | none => rw [hl] at h; exact absurd h (by simp)
  | some lastelt =>
      rw [hl] at h
      have hne : heap ≠ [] := by
        intro hh; subst hh; simp at hl
      have hlast : lastelt ∈ heap := by
        rcases List.mem_getLast?_eq_getLast (show lastelt ∈ heap.getLast? from hl)
          with ⟨hh, he⟩
        exact he ▸ List.getLast_mem hh
      have hpos : 0 < heap.length := List.length_pos.2 hne
      have hdrop : ∀ x ∈ heap.dropLast, x ∈ heap :=
        fun x hx => (List.dropLast_sublist _).subset hx
      simp only at h
      split_ifs at h with h0
      · simp only [Option.some.injEq, Prod.mk.injEq] at h
        obtain ⟨he, hr⟩ := h
        subst he
        subst hr
        refine ⟨hlast, ?_, hdrop⟩
        rw [List.length_dropLast]
        omega
      · simp only [Option.some.injEq, Prod.mk.injEq] at h
        obtain ⟨he, hr⟩ := h
        have hlen0 : 0 < heap.dropLast.length := Nat.pos_of_ne_zero h0
        refine ⟨?_, ?_, ?_⟩
        · subst he
          rcases getD_mem_or heap.dropLast 0 lastelt with hm | hm
          · exact hdrop _ hm
          · rw [hm]; exact hlast
        · subst hr
          rw [length_siftup, List.length_set, List.length_dropLast]
          omega
        · intro x hx
          subst hr
          rcases mem_siftup _ _ _ hx with hm | hm
          · rcases List.mem_or_eq_of_mem_set hm with hm' | hm'
            · exact hdrop _ hm'
            · rw [hm']; exact hlast
          · have hlt : 0 < (heap.dropLast.set 0 lastelt).length := by
              rwa [List.length_set]
            have hgm := getD_mem_of_lt _ 0 ((0 : Weight), "") hlt
            rw [← hm] at hgm
            rcases List.mem_or_eq_of_mem_set hgm with hm' | hm'
            · exact hdrop _ hm'
            · rw [hm']; exact hlast

/-! ## Relaxation-loop lemmas -/

/-- Every node recorded in the open queue has a `g_score` entry; this is
what makes the `g_score[current]` subscripts of the source total. -/
def OpenG (g : GScore) (open_set : Heap) : Prop :=
  ∀ e ∈ open_set, (dictGet? g e.2).isSome

/-- The state produced by the update branch of one relaxation
(lines 69-72 of the source). -/
def relaxUpd (h : HTable) (current : Node) (gcur : Weight) (st : RState)
    (nc : Node × Weight) : RState :=
  (dictInsert st.1 nc.1 (some current),
   dictInsert st.2.1 nc.1 (gcur + nc.2),
   heappush st.2.2 (gcur + nc.2 + hGet h nc.1, nc.1))

theorem relaxOne_skip (h : HTable) (current : Node) (gcur : Weight)
    (st : RState) (nc : Node × Weight) (gn : Weight)
    (hg : dictGet? st.2.1 nc.1 = some gn) (hle : gn ≤ gcur + nc.2) :
    relaxOne h current gcur st nc = st := by
  simp [relaxOne, hg, hle]

theorem relaxOne_upd_new (h : HTable) (current : Node) (gcur : Weight)
    (st : RState) (nc : Node × Weight)
    (hg : dictGet? st.2.1 nc.1 = none) :
    relaxOne h current gcur st nc = relaxUpd h current gcur st nc := by
  simp [relaxOne, relaxUpd, hg]

theorem relaxOne_upd_lt (h : HTable) (current : Node) (gcur : Weight)
    (st : RState) (nc : Node × Weight) (gn : Weight)
    (hg : dictGet? st.2.1 nc.1 = some gn) (hlt : gcur + nc.2 < gn) :
    relaxOne h current gcur st nc = relaxUpd h current gcur st nc := by
  simp [relaxOne, relaxUpd, hg, not_le.2 hlt]

theorem relaxOne_gmono (h : HTable) (current : Node) (gcur : Weight)
    (st : RState) (nc : Node × Weight) (k : Node)
    (hk : (dictGet? st.2.1 k).isSome) :
    (dictGet? (relaxOne h current gcur st nc).2.1 k).isSome := by
  unfold relaxOne
  cases hg : dictGet? st.2.1 nc.1 with
  | none => exact isSome_dictGet?_insert _ _ _ _ hk
  | some gn =>
      by_cases hle : gn ≤ gcur + nc.2
      · simpa [hle] using hk
      · simp only [hle, if_false]
        exact isSome_dictGet?_insert _ _ _ _ hk

theorem relaxOne_openG (h : HTable) (current : Node) (gcur : Weight)
    (st : RState) (nc : Node × Weight) (hst : OpenG st.2.1 st.2.2) :
    OpenG (relaxOne h current gcur st nc).2.1
      (relaxOne h current gcur st nc).2.2 := by
  have hupd : OpenG (dictInsert st.2.1 nc.1 (gcur + nc.2))
      (heappush st.2.2 (gcur + nc.2 + hGet h nc.1, nc.1)) := by
    intro e he
    rcases mem_heappush _ _ _ he with hm | hm
    · exact isSome_dictGet?_insert _ _ _ _ (hst e hm)
    · subst hm
      rw [dictGet?_insert_self]
      rfl
  unfold relaxOne
  cases hg : dictGet? st.2.1 nc.1 with
  | none => exact hupd
  | some gn =>
      by_cases hle : gn ≤ gcur + nc.2
      · simpa [hle] using hst
      · simpa [hle] using hupd

theorem relaxOne_len (h : HTable) (current : Node) (gcur : Weight)
    (st : RState) (nc : Node × Weight) :
    (relaxOne h current gcur st nc).2.2.length ≤ st.2.2.length + 1 := by
  unfold relaxOne
  cases hg : dictGet? st.2.1 nc.1 with
  | none => simp [length_heappush]
  | some gn =>
      by_cases hle : gn ≤ gcur + nc.2
      · simp [hle]
      · simp [hle, length_heappush]

theorem relaxOne_mem (h : HTable) (current : Node) (gcur : Weight)
    (st : RState) (nc : Node × Weight) (x : Entry)
    (hx : x ∈ (relaxOne h current gcur st nc).2.2) :
    x ∈ st.2.2 ∨ x.2 = nc.1 := by
  have hupd : x ∈ (relaxUpd h current gcur st nc).2.2 →
      x ∈ st.2.2 ∨ x.2 = nc.1 := by
    intro hxu
    rcases mem_heappush _ _ _ hxu with hm | hm
    · exact .inl hm
    · exact .inr (by rw [hm])
  cases hg : dictGet? st.2.1 nc.1 with
  | none =>
      rw [relaxOne_upd_new _ _ _ _ _ hg] at hx
      exact hupd hx
  | some gn =>
      by_cases hle : gn ≤ gcur + nc.2
      · rw [relaxOne_skip _ _ _ _ _ _ hg hle] at hx
        exact .inl hx
      · rw [relaxOne_upd_lt _ _ _ _ _ _ hg (not_le.1 hle)] at hx
        exact hupd hx

theorem relaxList_isSome (h : HTable) (current : Node)
    (nbrs : List (Node × Weight)) :
    ∀ (st : RState), (dictGet? st.2.1 current).isSome →
      ∃ st', relaxList h current nbrs st = some st' := by
  induction nbrs with
  | nil => intro st _; exact ⟨st, rfl⟩
  | cons nc rest ih =>
      intro st hs
      rcases Option.isSome_iff_exists.1 hs with ⟨gcur, hg⟩
      rcases ih (relaxOne h current gcur st nc)
          (relaxOne_gmono _ _ _ _ _ _ hs) with ⟨st', hst'⟩
      exact ⟨st', by simp [relaxList, hg, hst']⟩

theorem relaxList_gmono (h : HTable) (current : Node)
    (nbrs : List (Node × Weight)) :
    ∀ (st st' : RState), relaxList h current nbrs st = some st' →
      ∀ k, (dictGet? st.2.1 k).isSome → (dictGet? st'.2.1 k).isSome := by
  induction nbrs with
  | nil =>
      intro st st' hrel k hk
      simp only [relaxList, Option.some.injEq] at hrel
      exact hrel ▸ hk
  | cons nc rest ih =>
      intro st st' hrel k hk
      simp only [relaxList] at hrel
      cases hg : dictGet? st.2.1 current with
      | none => rw [hg] at hrel; exact absurd hrel (by simp)
      | some gcur =>
          rw [hg] at hrel
          exact ih _ _ hrel k (relaxOne_gmono _ _ _ _ _ _ hk)

theorem relaxList_openG (h : HTable) (current : Node)
    (nbrs : List (Node × Weight)) :
    ∀ (st st' : RState), relaxList h current nbrs st = some st' →
      OpenG st.2.1 st.2.2 → OpenG st'.2.1 st'.2.2 := by
  induction nbrs with
  | nil =>
      intro st st' hrel hst
      simp only [relaxList, Option.some.injEq] at hrel
      exact hrel ▸ hst
  | cons nc rest ih =>
      intro st st' hrel hst
      simp only [relaxList] at hrel
      cases hg : dictGet? st.2.1 current with
      | none => rw [hg] at hrel; exact absurd hrel (by simp)
      | some gcur =>
          rw [hg] at hrel
          exact ih _ _ hrel (relaxOne_openG _ _ _ _ _ hst)

theorem relaxList_len (h : HTable) (current : Node)
    (nbrs : List (Node × Weight)) :
    ∀ (st st' : RState), relaxList h current nbrs st = some st' →
      st'.2.2.length ≤ st.2.2.length + nbrs.length := by
  induction nbrs with
  | nil =>
      intro st st' hrel
      simp only [relaxList, Option.some.injEq] at hrel
      subst hrel
      simp
  | cons nc rest ih =>
      intro st st' hrel
      simp only [relaxList] at hrel
      cases hg : dictGet? st.2.1 current with
      | none => rw [hg] at hrel; exact absurd hrel (by simp)
      | some gcur =>
          rw [hg] at hrel
          have h1 := ih _ _ hrel
          have h2 := relaxOne_len h current gcur st nc
          simp only [List.length_cons]
          omega

theorem relaxList_mem (h : HTable) (current : Node)
    (nbrs : List (Node × Weight)) :
    ∀ (st st' : RState), relaxList h current nbrs st = some st' →
      ∀ x ∈ st'.2.2, x ∈ st.2.2 ∨ ∃ nc ∈ nbrs, x.2 = nc.1 := by
  induction nbrs with
  | nil =>
      intro st st' hrel x hx
      simp only [relaxList, Option.some.injEq] at hrel
      exact .inl (hrel ▸ hx)
  | cons nc rest ih =>
      intro st st' hrel x hx
      simp only [relaxList] at hrel
      cases hg : dictGet? st.2.1 current with
      | none => rw [hg] at hrel; exact absurd hrel (by simp)
      | some gcur =>
          rw [hg] at hrel
          rcases ih _ _ hrel x hx with hm | ⟨nc', hnc', he⟩
          · rcases relaxOne_mem _ _ _ _ _ _ hm with hm' | hm'
            · exact .inl hm'
            · exact .inr ⟨nc, List.mem_cons_self _ _, hm'⟩
          · exact .inr ⟨nc', List.mem_cons_of_mem _ hnc', he⟩

/-! ## The iteration measure -/

/-- Edge slots of still-unexpanded nodes: the pushes the search can still
perform. -/
def remEdges (graph : Graph) (closed : List Node) : Nat :=
  (graph.map (fun p => if p.1 ∈ closed then 0 else p.2.length)).sum

theorem remEdges_nil (graph : Graph) : remEdges graph [] = totalEdges graph := by
  unfold remEdges totalEdges
  induction graph with
  | nil => rfl
  | cons p rest ih => simp [ih]

theorem remEdges_append_le (graph : Graph) (closed : List Node) (cur : Node) :
    remEdges graph (closed ++ [cur]) ≤ remEdges graph closed := by
  unfold remEdges
  induction graph with
  | nil => exact le_refl _
  | cons p rest ih =>
      simp only [List.map_cons, List.sum_cons]
      have hterm : (if p.1 ∈ closed ++ [cur] then 0 else p.2.length) ≤
          (if p.1 ∈ closed then 0 else p.2.length) := by
        by_cases hm : p.1 ∈ closed
        · simp [hm]
        · by_cases hm' : p.1 ∈ closed ++ [cur] <;> simp [hm, hm']
      omega

theorem remEdges_close (graph : Graph) (closed : List Node) (cur : Node)
    (adj : Adj) (hng : cur ∉ closed) (hadj : dictGet? graph cur = some adj) :
    remEdges graph (closed ++ [cur]) + adj.length ≤ remEdges graph closed := by
  induction graph with
  | nil => simp [dictGet?] at hadj
  | cons p rest ih =>
      by_cases hp : p.1 = cur
      · have hadj' : adj = p.2 := by
          simp [dictGet?, hp] at hadj
          exact hadj.symm
        subst hadj'
        unfold remEdges
        simp only [List.map_cons, List.sum_cons]
        have h1 : (p.1 ∈ closed ++ [cur]) := by
          rw [hp]; exact List.mem_append_right _ (List.mem_singleton_self _)
        have h2 : ¬ (p.1 ∈ closed) := hp ▸ hng
        rw [if_pos h1, if_neg h2]
        have h3 := remEdges_append_le rest closed cur
        unfold remEdges at h3
        omega
      · simp only [dictGet?, hp, if_false] at hadj
        have h1 := ih hadj
        unfold remEdges at h1 ⊢
        simp only [List.map_cons, List.sum_cons]
        have hterm : (if p.1 ∈ closed ++ [cur] then 0 else p.2.length) =
            (if p.1 ∈ closed then 0 else p.2.length) := by
          by_cases hm : p.1 ∈ closed
          · simp [hm]
          · have : ¬ p.1 ∈ closed ++ [cur] := by
              intro hc
              rcases List.mem_append.1 hc with hc' | hc'
              · exact hm hc'
              · exact hp (List.mem_singleton.1 hc')
            simp [hm, this]
        omega


/-! ## The predecessor-structure invariant

`came_from` pointers are only written while their target is being expanded.
Recording (as a ghost map `gc`) the `g_score` each node had when it was
closed yields an invariant strong enough to rule out pointer cycles even
with zero-weight edges, which bounds the reconstruction loop. -/

/-- Invariant `CFgc gc came g closed`: every pointer `v ↦ u` targets a closed node,
`g v` is at least the closing-time score `gc u` of its predecessor, closed
nodes never rise above their closing-time score, and a pointer whose source
is closed and still carries its own closing-time score points to an
earlier-closed node. -/
def CFgc (gc : Node → Weight) (came : CameFrom) (g : GScore)
    (closed : List Node) : Prop :=
  (∀ u ∈ closed, ∃ gu, dictGet? g u = some gu ∧ gu ≤ gc u) ∧
  (∀ v u, dictGet? came v = some (some u) →
      u ∈ closed ∧
      (∃ gv, dictGet? g v = some gv ∧ gc u ≤ gv) ∧
      (v ∈ closed → ∀ gv, dictGet? g v = some gv → gv = gc v →
          List.indexOf u closed < List.indexOf v closed))

/-- The predecessor-structure invariant, with the ghost record quantified. -/
def CFInv (came : CameFrom) (g : GScore) (closed : List Node) : Prop :=
  ∃ gc, CFgc gc came g closed

theorem indexOf_append_new (cur : Node) (closed : List Node)
    (h : cur ∉ closed) :
    List.indexOf cur (closed ++ [cur]) = closed.length := by
  rw [List.indexOf_append_of_not_mem h]
  simp

theorem CFgc_close (gc : Node → Weight) (came : CameFrom) (g : GScore)
    (closed : List Node) (cur : Node) (gcur : Weight)
    (hcur : dictGet? g cur = some gcur) (hnc : cur ∉ closed)
    (hCF : CFgc gc came g closed) :
    CFgc (fun x => if x = cur then gcur else gc x) came g (closed ++ [cur]) := by
  obtain ⟨h3, hptr⟩ := hCF
  constructor
  · intro u hu
    rcases List.mem_append.1 hu with hu' | hu'
    · have hne : u ≠ cur := fun he => hnc (he ▸ hu')
      rcases h3 u hu' with ⟨gu, hgu, hle⟩
      exact ⟨gu, hgu, by simpa [hne] using hle⟩
    · have he : u = cur := List.mem_singleton.1 hu'
      subst he
      exact ⟨gcur, hcur, by simp⟩
  · intro v u hv
    obtain ⟨huc, ⟨gv, hgv, hle⟩, hI4⟩ := hptr v u hv
    have hune : u ≠ cur := fun he => hnc (he ▸ huc)
    refine ⟨List.mem_append_left _ huc, ⟨gv, hgv, by simpa [hune] using hle⟩, ?_⟩
    intro hvc gv' hgv' hgcv
    rcases List.mem_append.1 hvc with hv' | hv'
    · have hvne : v ≠ cur := fun he => hnc (he ▸ hv')
      rw [List.indexOf_append_of_mem huc, List.indexOf_append_of_mem hv']
      exact hI4 hv' gv' hgv' (by simpa [hvne] using hgcv)
    · have he : v = cur := List.mem_singleton.1 hv'
      subst he
      rw [List.indexOf_append_of_mem huc, indexOf_append_new _ _ hnc]
      exact List.indexOf_lt_length.2 huc

theorem relaxOne_CF (h : HTable) (cur : Node) (gcur : Weight)
    (gc : Node → Weight) (closed : List Node) (st : RState)
    (nc : Node × Weight) (hw : 0 ≤ nc.2) (hcm : cur ∈ closed)
    (hgcur : dictGet? st.2.1 cur = some gcur) (hgc : gc cur = gcur)
    (hCF : CFgc gc st.1 st.2.1 closed) :
    CFgc gc (relaxOne h cur gcur st nc).1 (relaxOne h cur gcur st nc).2.1
        closed ∧
      dictGet? (relaxOne h cur gcur st nc).2.1 cur = some gcur := by
  obtain ⟨h3, hptr⟩ := hCF
  -- the update branch, shared by the `none` and the strict-improvement case
  have hupd : ∀ (hne : nc.1 ≠ cur)
      (hsmall : ∀ gn, dictGet? st.2.1 nc.1 = some gn → gcur + nc.2 < gn),
      CFgc gc (relaxUpd h cur gcur st nc).1 (relaxUpd h cur gcur st nc).2.1
          closed ∧
        dictGet? (relaxUpd h cur gcur st nc).2.1 cur = some gcur := by
    intro hne hsmall
    refine ⟨⟨?_, ?_⟩, ?_⟩
    · intro u hu
      by_cases hun : u = nc.1
      · rcases h3 u hu with ⟨gu, hgu, hle⟩
        have hlt := hsmall gu (hun ▸ hgu)
        refine ⟨gcur + nc.2, ?_, le_trans (le_of_lt hlt) hle⟩
        rw [hun]
        simpa [relaxUpd] using dictGet?_insert_self st.2.1 nc.1 (gcur + nc.2)
      · rcases h3 u hu with ⟨gu, hgu, hle⟩
        refine ⟨gu, ?_, hle⟩
        have := dictGet?_insert_ne st.2.1 nc.1 u (gcur + nc.2) hun
        simp only [relaxUpd]
        rw [this]
        exact hgu
    · intro v u hv
      by_cases hvn : v = nc.1
      · have hval : dictGet? (relaxUpd h cur gcur st nc).1 v = some (some cur) := by
          rw [hvn]
          simpa [relaxUpd] using dictGet?_insert_self st.1 nc.1 (some cur)
        rw [hval] at hv
        have huc : cur = u := by simpa using hv
        subst huc
        have hgsv : dictGet? (relaxUpd h cur gcur st nc).2.1 v =
            some (gcur + nc.2) := by
          rw [hvn]
          simpa [relaxUpd] using dictGet?_insert_self st.2.1 nc.1 (gcur + nc.2)
        refine ⟨hcm, ⟨gcur + nc.2, hgsv, ?_⟩, ?_⟩
        · rw [hgc]; linarith
        · intro hvc gv hgv hgcv
          rcases h3 v hvc with ⟨gvold, hgvold, hlevold⟩
          have hlt := hsmall gvold (hvn ▸ hgvold)
          have hgveq : gv = gcur + nc.2 := by
            rw [hgsv] at hgv
            simpa using hgv.symm
          exfalso
          rw [hgveq] at hgcv
          have hcontra : gc v < gc v := by
            calc gc v = gcur + nc.2 := hgcv.symm
            _ < gvold := hlt
            _ ≤ gc v := hlevold
          exact lt_irrefl _ hcontra
      · have hval : dictGet? (relaxUpd h cur gcur st nc).1 v =
            dictGet? st.1 v := by
          simpa [relaxUpd] using dictGet?_insert_ne st.1 nc.1 v (some cur) hvn
        rw [hval] at hv
        obtain ⟨huc, ⟨gv, hgv, hle⟩, hI4⟩ := hptr v u hv
        have hgsame : dictGet? (relaxUpd h cur gcur st nc).2.1 v =
            dictGet? st.2.1 v := by
          simpa [relaxUpd] using dictGet?_insert_ne st.2.1 nc.1 v (gcur + nc.2) hvn
        refine ⟨huc, ⟨gv, by rw [hgsame]; exact hgv, hle⟩, ?_⟩
        intro hvc gv' hgv' hgcv
        rw [hgsame] at hgv'
        exact hI4 hvc gv' hgv' hgcv
    · have hne' : cur ≠ nc.1 := fun he => hne he.symm
      simpa [relaxUpd] using
        (dictGet?_insert_ne st.2.1 nc.1 cur (gcur + nc.2) hne').symm ▸ hgcur
  cases hg : dictGet? st.2.1 nc.1 with
  | none =>
      have hne : nc.1 ≠ cur := by
        intro he; rw [he, hgcur] at hg; exact absurd hg (by simp)
      rw [relaxOne_upd_new _ _ _ _ _ hg]
      exact hupd hne (fun gn hgn => absurd (hg ▸ hgn) (by simp))
  | some gn =>
      by_cases hle : gn ≤ gcur + nc.2
      · rw [relaxOne_skip _ _ _ _ _ _ hg hle]
        exact ⟨⟨h3, hptr⟩, hgcur⟩
      · have hlt := not_le.1 hle
        have hne : nc.1 ≠ cur := by
          intro he
          rw [he, hgcur] at hg
          have : gn = gcur := by simpa using hg.symm
          subst this
          have : (0 : Weight) ≤ nc.2 := hw
          linarith
        rw [relaxOne_upd_lt _ _ _ _ _ _ hg hlt]
        exact hupd hne (fun gn' hgn' => by
          rw [hg] at hgn'
          have : gn' = gn := by simpa using hgn'.symm
          subst this
          exact hlt)

theorem relaxList_CF (h : HTable) (cur : Node) (gc : Node → Weight)
    (closed : List Node) (nbrs : List (Node × Weight)) :
    ∀ (st st' : RState), relaxList h cur nbrs st = some st' →
      (∀ nc ∈ nbrs, (0 : Weight) ≤ nc.2) →
      cur ∈ closed →
      dictGet? st.2.1 cur = some (gc cur) →
      CFgc gc st.1 st.2.1 closed →
      CFgc gc st'.1 st'.2.1 closed := by
  induction nbrs with
  | nil =>
      intro st st' hrel _ _ _ hCF
      simp only [relaxList, Option.some.injEq] at hrel
      exact hrel ▸ hCF
  | cons nc rest ih =>
      intro st st' hrel hw hcm hgcur hCF
      simp only [relaxList] at hrel
      rw [hgcur] at hrel
      have hstep := relaxOne_CF h cur (gc cur) gc closed st nc
        (hw nc (List.mem_cons_self _ _)) hcm hgcur rfl hCF
      exact ih _ _ hrel (fun nc' hnc' => hw nc' (List.mem_cons_of_mem _ hnc'))
        hcm hstep.2 hstep.1

/-! ## Pointer chains and acyclicity -/

/-- One step of the reconstruction walk: `came_from.get(node)`. -/
def stepR (came : CameFrom) (n : Node) : Option Node :=
  (dictGet? came n).getD none

/-- The `k`-fold iteration of `stepR`. -/
def stepN (came : CameFrom) : Nat → Node → Option Node
  | 0, n => some n
  | k + 1, n =>
      match stepR came n with
      | none => none
      | some m => stepN came k m

theorem stepR_eq_some {came : CameFrom} {n m : Node}
    (h : stepR came n = some m) : dictGet? came n = some (some m) := by
  unfold stepR at h
  cases hg : dictGet? came n with
  | none => rw [hg] at h; exact absurd h (by simp)
  | some o =>
      rw [hg] at h
      simp only [Option.getD_some] at h
      rw [h]

theorem stepN_comp {came : CameFrom} :
    ∀ (a b : Nat) (v m w : Node), stepN came a v = some m →
      stepN came b m = some w → stepN came (a + b) v = some w := by
  intro a
  induction a with
  | zero =>
      intro b v m w h1 h2
      simp only [stepN, Option.some.injEq] at h1
      subst h1
      simpa using h2
  | succ n ih =>
      intro b v m w h1 h2
      have he : n + 1 + b = (n + b) + 1 := by omega
      rw [he]
      simp only [stepN] at h1 ⊢
      cases hs : stepR came v with
      | none => rw [hs] at h1; exact absurd h1 (by simp)
      | some m1 =>
          rw [hs] at h1
          exact ih b m1 m w h1 h2

theorem stepN_split {came : CameFrom} :
    ∀ (a b : Nat) (v w : Node), stepN came (a + b) v = some w →
      ∃ m, stepN came a v = some m ∧ stepN came b m = some w := by
  intro a
  induction a with
  | zero => intro b v w h; exact ⟨v, rfl, by simpa using h⟩
  | succ n ih =>
      intro b v w h
      have he : n + 1 + b = (n + b) + 1 := by omega
      rw [he] at h
      simp only [stepN] at h
      cases hs : stepR came v with
      | none => rw [hs] at h; exact absurd h (by simp)
      | some m1 =>
          rw [hs] at h
          rcases ih b m1 w h with ⟨m, hm1, hm2⟩
          refine ⟨m, ?_, hm2⟩
          simp only [stepN, hs]
          exact hm1

theorem stepN_one {came : CameFrom} {a b : Node}
    (h : stepN came 1 a = some b) : stepR came a = some b := by
  simp only [stepN] at h
  cases hs : stepR came a with
  | none => rw [hs] at h; exact absurd h (by simp)
  | some m =>
      rw [hs] at h
      simp only [stepN, Option.some.injEq] at h
      rw [h]

theorem step_link {gc : Node → Weight} {came : CameFrom} {g : GScore}
    {closed : List Node} (hCF : CFgc gc came g closed) {v u : Node}
    (h : stepR came v = some u) :
    u ∈ closed ∧ ∃ gv gu, dictGet? g v = some gv ∧ dictGet? g u = some gu ∧
      gu ≤ gc u ∧ gc u ≤ gv := by
  have hp := stepR_eq_some h
  obtain ⟨huc, ⟨gv, hgv, hle⟩, _⟩ := hCF.2 v u hp
  obtain ⟨gu, hgu, hgule⟩ := hCF.1 u huc
  exact ⟨huc, gv, gu, hgv, hgu, hgule, hle⟩

theorem stepN_gle {gc : Node → Weight} {came : CameFrom} {g : GScore}
    {closed : List Node} (hCF : CFgc gc came g closed) :
    ∀ (k : Nat) (v w : Node), stepN came (k + 1) v = some w →
      ∃ gv gw, dictGet? g v = some gv ∧ dictGet? g w = some gw ∧ gw ≤ gv := by
  intro k
  induction k with
  | zero =>
      intro v w h
      have hs := stepN_one h
      obtain ⟨_, gv, gw, hgv, hgw, h1, h2⟩ := step_link hCF hs
      exact ⟨gv, gw, hgv, hgw, le_trans h1 h2⟩
  | succ n ih =>
      intro v w h
      simp only [stepN] at h
      cases hs : stepR came v with
      | none => rw [hs] at h; exact absurd h (by simp)
      | some m =>
          rw [hs] at h
          rcases ih m w h with ⟨gm, gw, hgm, hgw, hle⟩
          obtain ⟨_, gv, gm', hgv, hgm', h1, h2⟩ := step_link hCF hs
          have hee : gm' = gm := by
            rw [hgm] at hgm'
            simpa using hgm'.symm
          subst hee
          exact ⟨gv, gw, hgv, hgw, le_trans hle (le_trans h1 h2)⟩

theorem cycle_gconst {gc : Node → Weight} {came : CameFrom} {g : GScore}
    {closed : List Node} (hCF : CFgc gc came g closed) {k : Nat} {v : Node}
    (hcyc : stepN came (k + 1) v = some v) {c : Weight}
    (hc : dictGet? g v = some c) :
    ∀ (j : Nat) (m : Node), j ≤ k + 1 → stepN came j v = some m →
      dictGet? g m = some c := by
  intro j m hj hstep
  cases j with
  | zero =>
      have he : v = m := by simpa [stepN] using hstep
      exact he ▸ hc
  | succ j' =>
      obtain ⟨gv1, gm, hgv1, hgm, hle1⟩ := stepN_gle hCF j' v m hstep
      have hgv1c : gv1 = c := by
        rw [hc] at hgv1
        simpa using hgv1.symm
      by_cases hjk : j' + 1 = k + 1
      · rw [hjk, hcyc] at hstep
        have he : v = m := by simpa using hstep
        exact he ▸ hc
      · have hsplit : j' + 1 + (k + 1 - (j' + 1)) = k + 1 := by omega
        rcases stepN_split (j' + 1) (k + 1 - (j' + 1)) v v
            (by rw [hsplit]; exact hcyc) with ⟨m', hm'1, hm'2⟩
        have hmm : m' = m := by
          rw [hstep] at hm'1
          simpa using hm'1.symm
        subst hmm
        obtain ⟨t, ht⟩ : ∃ t, k + 1 - (j' + 1) = t + 1 := ⟨k - j' - 1, by omega⟩
        rw [ht] at hm'2
        obtain ⟨gm2, gv2, hgm2, hgv2, hle2⟩ := stepN_gle hCF t m' v hm'2
        have he1 : gv2 = c := by
          rw [hc] at hgv2
          simpa using hgv2.symm
        have he2 : gm2 = gm := by
          rw [hgm] at hgm2
          simpa using hgm2.symm
        have heq : gm = c :=
          le_antisymm (hgv1c ▸ hle1) (by rw [← he1, ← he2]; exact hle2)
        rw [hgm, heq]

theorem cycle_gc {gc : Node → Weight} {came : CameFrom} {g : GScore}
    {closed : List Node} (hCF : CFgc gc came g closed) {k : Nat} {v : Node}
    (hcyc : stepN came (k + 1) v = some v) {c : Weight}
    (hc : dictGet? g v = some c) :
    ∀ (j : Nat) (m : Node), 1 ≤ j → j ≤ k + 1 → stepN came j v = some m →
      m ∈ closed ∧ gc m = c := by
  intro j m h1 hj hstep
  obtain ⟨j', rfl⟩ : ∃ j', j = j' + 1 := ⟨j - 1, by omega⟩
  rcases stepN_split j' 1 v m hstep with ⟨mprev, hprev, hstep1⟩
  have hsR := stepN_one hstep1
  obtain ⟨hmc, gvp, gm, hgvp, hgm, hle1, hle2⟩ := step_link hCF hsR
  have hgvpc := cycle_gconst hCF hcyc hc j' mprev (by omega) hprev
  have hgmc := cycle_gconst hCF hcyc hc (j' + 1) m hj hstep
  have e1 : gvp = c := by
    rw [hgvpc] at hgvp
    simpa using hgvp.symm
  have e2 : gm = c := by
    rw [hgmc] at hgm
    simpa using hgm.symm
  refine ⟨hmc, le_antisymm ?_ ?_⟩
  · rw [← e1]; exact hle2
  · rw [← e2]; exact hle1

theorem cycle_descent {gc : Node → Weight} {came : CameFrom} {g : GScore}
    {closed : List Node} (hCF : CFgc gc came g closed) {k : Nat} {v : Node}
    (hcyc : stepN came (k + 1) v = some v) {c : Weight}
    (hc : dictGet? g v = some c) :
    ∀ (j : Nat), j ≤ k + 1 → ∀ (m : Node), stepN came j v = some m →
      List.indexOf m closed + j ≤ List.indexOf v closed := by
  intro j
  induction j with
  | zero =>
      intro _ m hm
      have he : v = m := by simpa [stepN] using hm
      subst he
      simp
  | succ j' ih =>
      intro hj m hstep
      rcases stepN_split j' 1 v m hstep with ⟨mprev, hprev, hstep1⟩
      have hsR := stepN_one hstep1
      have hIH := ih (by omega) mprev hprev
      have hsrc : mprev ∈ closed ∧ gc mprev = c := by
        cases j' with
        | zero =>
            have he : v = mprev := by simpa [stepN] using hprev
            subst he
            exact cycle_gc hCF hcyc hc (k + 1) v (by omega) (le_refl _) hcyc
        | succ t =>
            exact cycle_gc hCF hcyc hc (t + 1) mprev (by omega) (by omega) hprev
      have hgvp : dictGet? g mprev = some c :=
        cycle_gconst hCF hcyc hc j' mprev (by omega) hprev
      have hp := stepR_eq_some hsR
      obtain ⟨_, _, hI4⟩ := hCF.2 mprev m hp
      have hidx : List.indexOf m closed < List.indexOf mprev closed :=
        hI4 hsrc.1 c hgvp hsrc.2.symm
      omega

theorem no_cycle {came : CameFrom} {g : GScore} {closed : List Node}
    (hInv : CFInv came g closed) (k : Nat) (v : Node)
    (hcyc : stepN came (k + 1) v = some v) : False := by
  obtain ⟨gc, hCF⟩ := hInv
  obtain ⟨gv, gw, hgv, _, _⟩ := stepN_gle hCF k v v hcyc
  have := cycle_descent hCF hcyc hgv (k + 1) (le_refl _) v hcyc
  omega

/-! ## Totality of the reconstruction loop -/

theorem nodup_subset_length {l l' : List Node} (h : l.Nodup) (hs : l ⊆ l') :
    l.length ≤ l'.length := by
  classical
  calc l.length = l.toFinset.card := (List.toFinset_card_of_nodup h).symm
  _ ≤ l'.toFinset.card := Finset.card_le_card (fun x hx => by
      simp only [List.mem_toFinset] at hx ⊢
      exact hs hx)
  _ ≤ l'.length := l'.toFinset_card_le

theorem reconstructRaw_total_aux {came : CameFrom} {g : GScore}
    {closed : List Node} (hInv : CFInv came g closed) :
    ∀ (fuel : Nat) (node : Node) (seen : List Node) (acc : List Node),
      seen.Nodup →
      (∀ s ∈ seen, ∃ k, stepN came (k + 1) s = some node) →
      (∀ s ∈ seen, s ∈ dkeys came) →
      came.length + 1 ≤ fuel + seen.length →
      ∃ l, reconstructRaw fuel came node acc = some l := by
  intro fuel
  induction fuel with
  | zero =>
      intro node seen acc hnd hsteps hkeys hfuel
      exfalso
      have h1 : seen.length ≤ (dkeys came).length :=
        nodup_subset_length hnd (fun s hs => hkeys s hs)
      rw [length_dkeys] at h1
      omega
  | succ f ih =>
      intro node seen acc hnd hsteps hkeys hfuel
      cases hdg : (dictGet? came node).getD none with
      | none =>
          refine ⟨acc ++ [node], ?_⟩
          simp only [reconstructRaw]
          rw [hdg]
      | some nxt =>
          have hsR : stepR came node = some nxt := hdg
          have hnotin : node ∉ seen := by
            intro hmem
            rcases hsteps node hmem with ⟨k, hk⟩
            exact no_cycle hInv k node hk
          have hstep1 : stepN came 1 node = some nxt := by
            simp [stepN, hsR]
          have happ : ∃ l, reconstructRaw f came nxt (acc ++ [node]) = some l := by
            apply ih nxt (node :: seen) (acc ++ [node])
            · exact List.nodup_cons.2 ⟨hnotin, hnd⟩
            · intro s hsm
              rcases List.mem_cons.1 hsm with he | hmem
              · exact ⟨0, he ▸ hstep1⟩
              · rcases hsteps s hmem with ⟨k, hk⟩
                exact ⟨k + 1, stepN_comp (k + 1) 1 s node nxt hk hstep1⟩
            · intro s hsm
              rcases List.mem_cons.1 hsm with he | hmem
              · exact he ▸ mem_dkeys_of_dictGet? (stepR_eq_some hsR)
              · exact hkeys s hmem
            · simp only [List.length_cons]
              omega
          rcases happ with ⟨l, hl⟩
          refine ⟨l, ?_⟩
          simp only [reconstructRaw]
          rw [hdg]
          exact hl

theorem reconstructRaw_total {came : CameFrom} {g : GScore}
    {closed : List Node} (hInv : CFInv came g closed) (node : Node) :
    ∃ l, reconstructRaw (came.length + 1) came node [] = some l :=
  reconstructRaw_total_aux hInv (came.length + 1) node [] [] List.nodup_nil
    (by simp) (by simp) (by simp)

/-! ## Branch equations for the main loop -/

theorem aLoop_pop_none (graph : Graph) (h : HTable) (goal : Node) (fuel : Nat)
    (came : CameFrom) (g : GScore) (closed : List Node) (open_set : Heap)
    (hp : heappop open_set = none) :
    aLoop graph h goal (fuel + 1) came g closed open_set = .ok (none, ⊤) := by
  simp [aLoop, hp]

theorem aLoop_goal (graph : Graph) (h : HTable) (goal : Node) (fuel : Nat)
    (came : CameFrom) (g : GScore) (closed : List Node) (open_set : Heap)
    (fc : Entry) (rest : Heap) (hp : heappop open_set = some (fc, rest))
    (hg : fc.2 = goal) :
    aLoop graph h goal (fuel + 1) came g closed open_set =
      match reconstructRaw (came.length + 1) came fc.2 [] with
      | none => .fuelOut
      | some p =>
          match dictGet? g fc.2 with
          | none => .keyError
          | some gcur => .ok (some p.reverse, (gcur : WithTop Weight)) := by
  simp [aLoop, hp, hg]

theorem aLoop_skip (graph : Graph) (h : HTable) (goal : Node) (fuel : Nat)
    (came : CameFrom) (g : GScore) (closed : List Node) (open_set : Heap)
    (fc : Entry) (rest : Heap) (hp : heappop open_set = some (fc, rest))
    (hg : ¬ fc.2 = goal) (hc : fc.2 ∈ closed) :
    aLoop graph h goal (fuel + 1) came g closed open_set =
      aLoop graph h goal fuel came g closed rest := by
  simp [aLoop, hp, hg, hc]

theorem aLoop_expand (graph : Graph) (h : HTable) (goal : Node) (fuel : Nat)
    (came : CameFrom) (g : GScore) (closed : List Node) (open_set : Heap)
    (fc : Entry) (rest : Heap) (hp : heappop open_set = some (fc, rest))
    (hg : ¬ fc.2 = goal) (hc : ¬ fc.2 ∈ closed) :
    aLoop graph h goal (fuel + 1) came g closed open_set =
      match relaxList h fc.2 ((dictGet? graph fc.2).getD []) (came, g, rest) with
      | none => .keyError
      | some st =>
          aLoop graph h goal fuel st.1 st.2.1 (closed ++ [fc.2]) st.2.2 := by
  simp [aLoop, hp, hg, hc]

/-! ## The main loop never raises, terminates, and reports unreachability -/

theorem dictGet?_mem {α : Type} {d : List (Node × α)} {k : Node} {v : α}
    (h : dictGet? d k = some v) : (k, v) ∈ d := by
  induction d with
  | nil => simp [dictGet?] at h
  | cons p rest ih =>
      by_cases hp : p.1 = k
      · simp only [dictGet?, hp, if_true] at h
        have hv : p.2 = v := by simpa using h
        have hpkv : p = (k, v) := by rw [← hp, ← hv]
        rw [← hpkv]
        exact List.mem_cons_self _ _
      · simp only [dictGet?, hp, if_false] at h
        exact List.mem_cons_of_mem _ (ih h)

theorem nonneg_nbrs {graph : Graph} (hw : NonnegGraph graph) (cur : Node) :
    ∀ nc ∈ (dictGet? graph cur).getD [], (0 : Weight) ≤ nc.2 := by
  cases hdg : dictGet? graph cur with
  | none => simp
  | some adj =>
      intro nc hnc
      exact hw (cur, adj) (dictGet?_mem hdg) nc (by simpa using hnc)

theorem aLoop_no_keyError (graph : Graph) (h : HTable) (goal : Node) :
    ∀ (fuel : Nat) (came : CameFrom) (g : GScore) (closed : List Node)
      (open_set : Heap), OpenG g open_set →
      aLoop graph h goal fuel came g closed open_set ≠ .keyError := by
  intro fuel
  induction fuel with
  | zero => intro came g closed open_set _; simp [aLoop]
  | succ f ih =>
      intro came g closed open_set hOpen
      cases hp : heappop open_set with
      | none => rw [aLoop_pop_none _ _ _ _ _ _ _ _ hp]; simp
      | some er =>
          obtain ⟨fc, rest⟩ := er
          have hpop := heappop_spec _ _ _ hp
          have hrest : OpenG g rest := fun e he => hOpen e (hpop.2.2 e he)
          have hcur : (dictGet? g fc.2).isSome := hOpen fc hpop.1
          obtain ⟨gcur, hgcur⟩ := Option.isSome_iff_exists.1 hcur
          by_cases hg : fc.2 = goal
          · rw [aLoop_goal _ _ _ _ _ _ _ _ _ _ hp hg]
            cases hrec : reconstructRaw (came.length + 1) came fc.2 [] with
            | none => simp
            | some p => simp [hgcur]
          · by_cases hcl : fc.2 ∈ closed
            · rw [aLoop_skip _ _ _ _ _ _ _ _ _ _ hp hg hcl]
              exact ih came g closed rest hrest
            · rw [aLoop_expand _ _ _ _ _ _ _ _ _ _ hp hg hcl]
              rcases relaxList_isSome h fc.2 ((dictGet? graph fc.2).getD [])
                  (came, g, rest) hcur with ⟨st', hst'⟩
              rw [hst']
              exact ih st'.1 st'.2.1 (closed ++ [fc.2]) st'.2.2
                (relaxList_openG _ _ _ _ _ hst' hrest)

theorem aLoop_total (graph : Graph) (h : HTable) (goal : Node)
    (hw : NonnegGraph graph) :
    ∀ (fuel : Nat) (came : CameFrom) (g : GScore) (closed : List Node)
      (open_set : Heap), OpenG g open_set → CFInv came g closed →
      open_set.length + remEdges graph closed + 1 ≤ fuel →
      ∃ r, aLoop graph h goal fuel came g closed open_set = .ok r := by
  intro fuel
  induction fuel with
  | zero =>
      intro came g closed open_set _ _ hfuel
      exact absurd hfuel (by omega)
  | succ f ih =>
      intro came g closed open_set hOpen hInv hfuel
      cases hp : heappop open_set with
      | none => exact ⟨(none, ⊤), aLoop_pop_none _ _ _ _ _ _ _ _ hp⟩
      | some er =>
          obtain ⟨fc, rest⟩ := er
          have hpop := heappop_spec _ _ _ hp
          have hrest : OpenG g rest := fun e he => hOpen e (hpop.2.2 e he)
          have hcur : (dictGet? g fc.2).isSome := hOpen fc hpop.1
          obtain ⟨gcur, hgcur⟩ := Option.isSome_iff_exists.1 hcur
          by_cases hg : fc.2 = goal
          · obtain ⟨p, hrec⟩ := reconstructRaw_total hInv fc.2
            refine ⟨(some p.reverse, (gcur : WithTop Weight)), ?_⟩
            rw [aLoop_goal _ _ _ _ _ _ _ _ _ _ hp hg, hrec, hgcur]
          · by_cases hcl : fc.2 ∈ closed
            · rw [aLoop_skip _ _ _ _ _ _ _ _ _ _ hp hg hcl]
              exact ih came g closed rest hrest hInv (by omega)
            · rw [aLoop_expand _ _ _ _ _ _ _ _ _ _ hp hg hcl]
              rcases relaxList_isSome h fc.2 ((dictGet? graph fc.2).getD [])
                  (came, g, rest) hcur with ⟨st', hst'⟩
              rw [hst']
              obtain ⟨gc, hCF⟩ := hInv
              have hCF' := CFgc_close gc came g closed fc.2 gcur hgcur hcl hCF
              have hgc'cur :
                  (fun x => if x = fc.2 then gcur else gc x) fc.2 = gcur := by
                simp
              have hCF'' := relaxList_CF h fc.2
                (fun x => if x = fc.2 then gcur else gc x) (closed ++ [fc.2])
                ((dictGet? graph fc.2).getD []) (came, g, rest) st' hst'
                (nonneg_nbrs hw fc.2)
                (List.mem_append_right _ (List.mem_singleton_self _))
                (by rw [hgc'cur]; exact hgcur) hCF'
              have hbound : st'.2.2.length +
                  remEdges graph (closed ++ [fc.2]) + 1 ≤ f := by
                have hlen := relaxList_len _ _ _ _ _ hst'
                cases hdg : dictGet? graph fc.2 with
                | none =>
                    have hre := remEdges_append_le graph closed fc.2
                    rw [hdg] at hlen
                    simp only [Option.getD_none, List.length_nil] at hlen
                    omega
                | some adj =>
                    have hre := remEdges_close graph closed fc.2 adj hcl hdg
                    rw [hdg] at hlen
                    simp only [Option.getD_some] at hlen
                    omega
              exact ih st'.1 st'.2.1 (closed ++ [fc.2]) st'.2.2
                (relaxList_openG _ _ _ _ _ hst' hrest) ⟨_, hCF''⟩ hbound

/-- Every entry of the open queue holds a node reachable from the start. -/
def ReachOpen (graph : Graph) (start : Node) (open_set : Heap) : Prop :=
  ∀ e ∈ open_set, Reaches graph start e.2

theorem aLoop_unreachable (graph : Graph) (h : HTable) (goal start : Node)
    (hnr : ¬ Reaches graph start goal) :
    ∀ (fuel : Nat) (came : CameFrom) (g : GScore) (closed : List Node)
      (open_set : Heap), OpenG g open_set →
      ReachOpen graph start open_set →
      open_set.length + remEdges graph closed + 1 ≤ fuel →
      aLoop graph h goal fuel came g closed open_set = .ok (none, ⊤) := by
  intro fuel
  induction fuel with
  | zero =>
      intro came g closed open_set _ _ hfuel
      exact absurd hfuel (by omega)
  | succ f ih =>
      intro came g closed open_set hOpen hReach hfuel
      cases hp : heappop open_set with
      | none => exact aLoop_pop_none _ _ _ _ _ _ _ _ hp
      | some er =>
          obtain ⟨fc, rest⟩ := er
          have hpop := heappop_spec _ _ _ hp
          have hrest : OpenG g rest := fun e he => hOpen e (hpop.2.2 e he)
          have hrReach : ReachOpen graph start rest :=
            fun e he => hReach e (hpop.2.2 e he)
          have hcur : (dictGet? g fc.2).isSome := hOpen fc hpop.1
          by_cases hg : fc.2 = goal
          · exact absurd (hg ▸ hReach fc hpop.1) hnr
          · by_cases hcl : fc.2 ∈ closed
            · rw [aLoop_skip _ _ _ _ _ _ _ _ _ _ hp hg hcl]
              exact ih came g closed rest hrest hrReach (by omega)
            · rw [aLoop_expand _ _ _ _ _ _ _ _ _ _ hp hg hcl]
              rcases relaxList_isSome h fc.2 ((dictGet? graph fc.2).getD [])
                  (came, g, rest) hcur with ⟨st', hst'⟩
              rw [hst']
              have hReach' : ReachOpen graph start st'.2.2 := by
                intro e he
                rcases relaxList_mem _ _ _ _ _ hst' e he with hm | ⟨nc, hnc, hmn⟩
                · exact hrReach e hm
                · have hcurR : Reaches graph start fc.2 := hReach fc hpop.1
                  cases hdg : dictGet? graph fc.2 with
                  | none => rw [hdg] at hnc; simp at hnc
                  | some adj =>
                      rw [hdg] at hnc
                      simp only [Option.getD_some] at hnc
                      have hedge : EdgeTo graph fc.2 nc.1 :=
                        ⟨adj, nc.2, hdg, by simpa using hnc⟩
                      rw [hmn]
                      exact Reaches.step hcurR hedge
              have hbound : st'.2.2.length +
                  remEdges graph (closed ++ [fc.2]) + 1 ≤ f := by
                have hlen := relaxList_len _ _ _ _ _ hst'
                cases hdg : dictGet? graph fc.2 with
                | none =>
                    have hre := remEdges_append_le graph closed fc.2
                    rw [hdg] at hlen
                    simp only [Option.getD_none, List.length_nil] at hlen
                    omega
                | some adj =>
                    have hre := remEdges_close graph closed fc.2 adj hcl hdg
                    rw [hdg] at hlen
                    simp only [Option.getD_some] at hlen
                    omega
              exact ih st'.1 st'.2.1 (closed ++ [fc.2]) st'.2.2
                (relaxList_openG _ _ _ _ _ hst' hrest) hReach' hbound

/-! ## A* with the zero heuristic is Dijkstra's algorithm -/

theorem dijLoop_pop_none (graph : Graph) (goal : Node) (fuel : Nat)
    (came : CameFrom) (g : GScore) (closed : List Node) (open_set : Heap)
    (hp : heappop open_set = none) :
    dijLoop graph goal (fuel + 1) came g closed open_set = .ok (none, ⊤) := by
  simp [dijLoop, hp]

theorem dijLoop_goal (graph : Graph) (goal : Node) (fuel : Nat)
    (came : CameFrom) (g : GScore) (closed : List Node) (open_set : Heap)
    (fc : Entry) (rest : Heap) (hp : heappop open_set = some (fc, rest))
    (hg : fc.2 = goal) :
    dijLoop graph goal (fuel + 1) came g closed open_set =
      match reconstructRaw (came.length + 1) came fc.2 [] with
      | none => .fuelOut
      | some p =>
          match dictGet? g fc.2 with
          | none => .keyError
          | some gcur => .ok (some p.reverse, (gcur : WithTop Weight)) := by
  simp [dijLoop, hp, hg]

theorem dijLoop_skip (graph : Graph) (goal : Node) (fuel : Nat)
    (came : CameFrom) (g : GScore) (closed : List Node) (open_set : Heap)
    (fc : Entry) (rest : Heap) (hp : heappop open_set = some (fc, rest))
    (hg : ¬ fc.2 = goal) (hc : fc.2 ∈ closed) :
    dijLoop graph goal (fuel + 1) came g closed open_set =
      dijLoop graph goal fuel came g closed rest := by
  simp [dijLoop, hp, hg, hc]

theorem dijLoop_expand (graph : Graph) (goal : Node) (fuel : Nat)
    (came : CameFrom) (g : GScore) (closed : List Node) (open_set : Heap)
    (fc : Entry) (rest : Heap) (hp : heappop open_set = some (fc, rest))
    (hg : ¬ fc.2 = goal) (hc : ¬ fc.2 ∈ closed) :
    dijLoop graph goal (fuel + 1) came g closed open_set =
      match dijRelaxList fc.2 ((dictGet? graph fc.2).getD []) (came, g, rest) with
      | none => .keyError
      | some st =>
          dijLoop graph goal fuel st.1 st.2.1 (closed ++ [fc.2]) st.2.2 := by
  simp [dijLoop, hp, hg, hc]

theorem relaxOne_zero_h (h : HTable) (hz : ∀ n, hGet h n = 0) (current : Node)
    (gcur : Weight) (st : RState) (nc : Node × Weight) :
    relaxOne h current gcur st nc = dijRelaxOne current gcur st nc := by
  cases hg : dictGet? st.2.1 nc.1 with
  | none => simp [relaxOne, dijRelaxOne, hg, hz nc.1]
  | some gn =>
      by_cases hle : gn ≤ gcur + nc.2 <;>
        simp [relaxOne, dijRelaxOne, hg, hle, hz nc.1]

theorem relaxList_zero_h (h : HTable) (hz : ∀ n, hGet h n = 0)
    (current : Node) :
    ∀ (nbrs : List (Node × Weight)) (st : RState),
      relaxList h current nbrs st = dijRelaxList current nbrs st := by
  intro nbrs
  induction nbrs with
  | nil => intro st; rfl
  | cons nc rest ih =>
      intro st
      simp only [relaxList, dijRelaxList]
      cases hg : dictGet? st.2.1 current with
      | none => rfl
      | some gcur =>
          show relaxList h current rest (relaxOne h current gcur st nc) =
            dijRelaxList current rest (dijRelaxOne current gcur st nc)
          rw [relaxOne_zero_h h hz, ih]

theorem aLoop_zero_h (graph : Graph) (h : HTable) (goal : Node)
    (hz : ∀ n, hGet h n = 0) :
    ∀ (fuel : Nat) (came : CameFrom) (g : GScore) (closed : List Node)
      (open_set : Heap),
      aLoop graph h goal fuel came g closed open_set =
        dijLoop graph goal fuel came g closed open_set := by
  intro fuel
  induction fuel with
  | zero => intro came g closed open_set; rfl
  | succ f ih =>
      intro came g closed open_set
      cases hp : heappop open_set with
      | none =>
          rw [aLoop_pop_none _ _ _ _ _ _ _ _ hp,
            dijLoop_pop_none _ _ _ _ _ _ _ hp]
      | some er =>
          obtain ⟨fc, rest⟩ := er
          by_cases hg : fc.2 = goal
          · rw [aLoop_goal _ _ _ _ _ _ _ _ _ _ hp hg,
              dijLoop_goal _ _ _ _ _ _ _ _ _ hp hg]
          · by_cases hcl : fc.2 ∈ closed
            · rw [aLoop_skip _ _ _ _ _ _ _ _ _ _ hp hg hcl,
                dijLoop_skip _ _ _ _ _ _ _ _ _ hp hg hcl]
              exact ih came g closed rest
            · rw [aLoop_expand _ _ _ _ _ _ _ _ _ _ hp hg hcl,
                dijLoop_expand _ _ _ _ _ _ _ _ _ hp hg hcl,
                relaxList_zero_h h hz]
              cases hrel : dijRelaxList fc.2 ((dictGet? graph fc.2).getD [])
                  (came, g, rest) with
              | none => rfl
              | some st => exact ih st.1 st.2.1 (closed ++ [fc.2]) st.2.2

/-- C6: for every graph and every heuristic table that assigns zero to
every node, `a_star` returns exactly the same result (path and cost,
including the tie-break behaviour of the shared priority queue) as
Dijkstra's shortest-path algorithm from start to goal. -/
theorem astar_zero_h_dijkstra (graph : Graph) (h : HTable)
    (start goal : Node) (hz : ∀ n, hGet h n = 0) :
    a_star graph h start goal = dijkstra graph start goal := by
  unfold a_star dijkstra
  rw [hz start]
  exact aLoop_zero_h graph h goal hz _ _ _ _ _

/-! ## The threaded variant returns its inputs unchanged -/

theorem relaxOneF_eq (env : Env) (current : Node) (gcur : Weight)
    (st : RState) (nc : Node × Weight) :
    relaxOneF env current gcur st nc = (env, relaxOne env.2 current gcur st nc) := by
  cases hg : dictGet? st.2.1 nc.1 with
  | none => simp [relaxOneF, relaxOne, relaxPushF, envHGet, hg]
  | some gn =>
      by_cases hle : gn ≤ gcur + nc.2 <;>
        simp [relaxOneF, relaxOne, relaxPushF, envHGet, hg, hle]

theorem relaxListF_eq (env : Env) (current : Node) :
    ∀ (nbrs : List (Node × Weight)) (st : RState),
      relaxListF env current nbrs st =
        (relaxList env.2 current nbrs st).map (fun s => (env, s)) := by
  intro nbrs
  induction nbrs with
  | nil => intro st; rfl
  | cons nc rest ih =>
      intro st
      simp only [relaxListF, relaxList]
      cases hg : dictGet? st.2.1 current with
      | none => rfl
      | some gcur =>
          simp only [relaxOneF_eq]
          exact ih (relaxOne env.2 current gcur st nc)

theorem aLoopF_eq (goal : Node) :
    ∀ (fuel : Nat) (env : Env) (came : CameFrom) (g : GScore)
      (closed : List Node) (open_set : Heap),
      aLoopF goal fuel env came g closed open_set =
        (aLoop env.1 env.2 goal fuel came g closed open_set, env) := by
  intro fuel
  induction fuel with
  | zero => intro env came g closed open_set; rfl
  | succ f ih =>
      intro env came g closed open_set
      simp only [aLoopF, aLoop]
      cases hp : heappop open_set with
      | none => rfl
      | some er =>
          obtain ⟨fc, rest⟩ := er
          by_cases hg : fc.2 = goal
          · simp only [hg, if_true]
            cases hrec : reconstructRaw (came.length + 1) came goal [] with
            | none => rfl
            | some p =>
                cases hgc : dictGet? g goal with
                | none => rfl
                | some gcur => rfl
          · by_cases hcl : fc.2 ∈ closed
            · simp only [hg, if_false, hcl, if_true]
              exact ih env came g closed rest
            · simp only [hg, if_false, hcl]
              simp only [envGraphGet, relaxListF_eq]
              cases hrel : relaxList env.2 fc.2 ((dictGet? env.1 fc.2).getD [])
                  (came, g, rest) with
              | none => rfl
              | some st =>
                  simp only [Option.map_some]
                  exact ih env st.1 st.2.1 (closed ++ [fc.2]) st.2.2

/-! ## Path lower bounds via feasible potentials -/

/-- Predicate: `d` is a feasible potential: across every edge `u → v` of weight `w`,
`d v ≤ d u + w`.  Any such `d` bounds every path cost from below. -/
def FeasPot (graph : Graph) (d : Node → Weight) : Prop :=
  ∀ p ∈ graph, ∀ q ∈ p.2, d q.1 ≤ d p.1 + q.2

instance (graph : Graph) (d : Node → Weight) : Decidable (FeasPot graph d) := by
  unfold FeasPot
  infer_instance

theorem edgeW_struct {graph : Graph} {a b : Node} {w : Weight}
    (h : edgeW graph a b = some w) :
    ∃ adj, dictGet? graph a = some adj ∧ dictGet? adj b = some w := by
  unfold edgeW at h
  cases hg : dictGet? graph a with
  | none => rw [hg] at h; simp [dictGet?] at h
  | some adj =>
      rw [hg] at h
      exact ⟨adj, rfl, by simpa using h⟩

theorem pathCost_ge_pot (graph : Graph) (d : Node → Weight)
    (hf : FeasPot graph d) :
    ∀ (p : List Node) (c : Weight) (a b : Node), pathCost graph p = some c →
      p.head? = some a → p.getLast? = some b → d b ≤ d a + c := by
  intro p
  induction p with
  | nil => intro c a b hc _ _; simp [pathCost] at hc
  | cons x tail ih =>
      intro c a b hc hh hl
      have hax : x = a := by simpa using hh
      subst hax
      cases tail with
      | nil =>
          have hc0 : (0 : Weight) = c := by simpa [pathCost] using hc
          have hbx : x = b := by simpa using hl
          subst hbx
          rw [← hc0]
          simp
      | cons y rest =>
          simp only [pathCost] at hc
          cases hew : edgeW graph x y with
          | none => rw [hew] at hc; simp at hc
          | some w =>
              rw [hew] at hc
              cases hpc : pathCost graph (y :: rest) with
              | none => rw [hpc] at hc; simp at hc
              | some c' =>
                  rw [hpc] at hc
                  have hcc : w + c' = c := by simpa using hc
                  have hlast : (y :: rest).getLast? = some b := by
                    rw [← hl]
                    exact (List.getLast?_cons_cons ..).symm
                  have hstep := ih c' y b hpc rfl hlast
                  rcases edgeW_struct hew with ⟨adj, hadj, hwadj⟩
                  have hedge : d y ≤ d x + w :=
                    hf (x, adj) (dictGet?_mem hadj) (y, w) (dictGet?_mem hwadj)
                  calc d b ≤ d y + c' := hstep
                  _ ≤ d x + w + c' := by linarith
                  _ = d x + c := by rw [← hcc]; ring

/-- A feasible potential for `bugGraph` witnessing that every path from a
node `n` to `G` costs at least `3 - bugPot n`. -/
def bugPot : Node → Weight :=
  fun n => if n = "A" then 1 else if n = "G" then 3 else 0

/-- A feasible potential for `bugGraph` witnessing that every path from `S`
to `G` costs at least `5`. -/
def bugPot2 : Node → Weight :=
  fun n => if n = "B" then 2 else if n = "A" then 3 else if n = "G" then 5 else 0

/-! ## Initial-state facts -/

theorem heappush_nil (e : Entry) : heappush [] e = [e] := rfl

theorem heappop_singleton (e : Entry) : heappop [e] = some (e, []) := rfl

theorem openG_init (h : HTable) (start : Node) :
    OpenG [(start, (0 : Weight))] (heappush [] (hGet h start, start)) := by
  intro e he
  rw [heappush_nil] at he
  have he' : e = (hGet h start, start) := List.mem_singleton.1 he
  subst he'
  simp [dictGet?]

theorem CFInv_init (start : Node) :
    CFInv [(start, (none : Option Node))] [(start, (0 : Weight))] [] := by
  refine ⟨fun _ => 0, ⟨by simp, ?_⟩⟩
  intro v u hv
  exfalso
  by_cases hs : start = v <;> simp [dictGet?, hs] at hv

theorem reachOpen_init (graph : Graph) (h : HTable) (start : Node) :
    ReachOpen graph start (heappush [] (hGet h start, start)) := by
  intro e he
  rw [heappush_nil] at he
  have he' : e = (hGet h start, start) := List.mem_singleton.1 he
  subst he'
  exact Reaches.refl

theorem reaches_nil {s t : Node} (h : Reaches [] s t) : s = t := by
  induction h with
  | refl => rfl
  | step _ he _ =>
      rcases he with ⟨adj, w, hadj, _⟩
      simp [dictGet?] at hadj

theorem astar_fuel_bound (graph : Graph) (h : HTable) (start : Node) :
    (heappush [] (hGet h start, start)).length + remEdges graph [] + 1 ≤
      astarFuel graph := by
  rw [length_heappush, remEdges_nil]
  simp [astarFuel]
  omega

/-! ## Admissibility and minimality facts for the four-node graph;
the claims -/

section ConcreteEvaluation

attribute [local semireducible] Rat.add

theorem bugH_le_pot : ∀ n : Node, hGet bugH n + bugPot n ≤ 3 := by
  intro n
  by_cases h1 : n = "S"
  · subst h1; decide
  · by_cases h2 : n = "A"
    · subst h2; decide
    · by_cases h3 : n = "B"
      · subst h3; decide
      · by_cases h4 : n = "G"
        · subst h4; decide
        · have hd : dictGet? bugH n = none := by
            simp only [bugH, dictGet?]
            rw [if_neg (fun hh => h1 hh.symm), if_neg (fun hh => h2 hh.symm),
              if_neg (fun hh => h3 hh.symm), if_neg (fun hh => h4 hh.symm)]
          have hp : bugPot n = 0 := by
            simp only [bugPot]
            rw [if_neg h2, if_neg h4]
          rw [hGet, hd, hp]
          norm_num

theorem bugPot_feasible : FeasPot bugGraph bugPot := by decide

theorem bugPot2_feasible : FeasPot bugGraph bugPot2 := by decide

/-- The heuristic `bugH` is admissible for `bugGraph` with goal `G`: it
never exceeds the cost of any path to `G`. -/
theorem bugH_admissible : ∀ (n : Node) (p : List Node) (c : Weight),
    IsPathFrom bugGraph n "G" p → pathCost bugGraph p = some c →
    hGet bugH n ≤ c := by
  intro n p c hp hc
  obtain ⟨hh, hl, _⟩ := hp
  have hlb := pathCost_ge_pot bugGraph bugPot bugPot_feasible p c n "G" hc hh hl
  have h3 : bugPot "G" = 3 := by decide
  have h4 := bugH_le_pot n
  rw [h3] at hlb
  linarith

/-- Every path from `S` to `G` in `bugGraph` costs at least `5`. -/
theorem bugGraph_min : ∀ (p : List Node) (c : Weight),
    IsPathFrom bugGraph "S" "G" p → pathCost bugGraph p = some c →
    (5 : Weight) ≤ c := by
  intro p c hp hc
  obtain ⟨hh, hl, _⟩ := hp
  have hlb := pathCost_ge_pot bugGraph bugPot2 bugPot2_feasible p c "S" "G" hc hh hl
  have e1 : bugPot2 "G" = 5 := by decide
  have e2 : bugPot2 "S" = 0 := by decide
  rw [e1, e2] at hlb
  linarith

/-- C1: on the reference graph of `main` with its heuristic table, the call
`a_star(graph, heuristic, 'S', 'G2')` returns the path `[S, B, F, D, G2]`
with total cost `9`. -/
theorem astar_reference_run :
    a_star refGraph refH "S" "G2" =
      .ok (some ["S", "B", "F", "D", "G2"], ((9 : Weight) : WithTop Weight)) := by
  decide

/-- C2 (failing-input record): on `bugGraph` with the admissible heuristic
`bugH` (admissibility is `bugH_admissible`) and positive edge weights,
`a_star` returns cost `6`, yet `[S, B, A, G]` is a path from `S` to `G` of
cost `5` (and `5` is the true minimum, `bugGraph_min`): the returned cost is
not the true shortest-path cost. -/
theorem astar_admissible_suboptimal :
    a_star bugGraph bugH "S" "G" =
        .ok (some ["S", "B", "A", "G"], ((6 : Weight) : WithTop Weight)) ∧
      NonnegGraph bugGraph ∧
      IsPathFrom bugGraph "S" "G" ["S", "B", "A", "G"] ∧
      pathCost bugGraph ["S", "B", "A", "G"] = some 5 := by
  refine ⟨by decide, by decide, by decide, by decide⟩

/-- C9 (failing-input record): on `bugGraph` with `bugH`, `a_star` returns
the path `[S, B, A, G]` paired with cost `6`, but the sum of the weights of
that path's edges is `5`: the returned cost is not the cost of the returned
path. -/
theorem astar_cost_path_mismatch :
    a_star bugGraph bugH "S" "G" =
        .ok (some ["S", "B", "A", "G"], ((6 : Weight) : WithTop Weight)) ∧
      pathCost bugGraph ["S", "B", "A", "G"] = some 5 ∧
      ((6 : Weight) : WithTop Weight) ≠ ((5 : Weight) : WithTop Weight) := by
  refine ⟨by decide, by decide, by decide⟩

end ConcreteEvaluation

/-- C3: for every graph, every heuristic table and every node `X`,
`a_star(graph, h, X, X)` returns the single-node path `[X]` with cost `0`,
whatever the graph contains. -/
theorem astar_trivial_path (graph : Graph) (h : HTable) (X : Node) :
    a_star graph h X X = .ok (some [X], ((0 : Weight) : WithTop Weight)) := by
  unfold a_star
  rw [show astarFuel graph = totalEdges graph + 1 + 1 from rfl, heappush_nil]
  rw [aLoop_goal graph h X (totalEdges graph + 1) [(X, none)] [(X, 0)] []
    [(hGet h X, X)] (hGet h X, X) [] (heappop_singleton _) rfl]
  simp [reconstructRaw, dictGet?]

/-- C4: for every graph with non-negative edge weights, when the goal is
not reachable from the start by any sequence of outgoing edges, `a_star`
returns the not-found outcome: path `None` paired with cost `inf`. -/
theorem astar_unreachable_notfound (graph : Graph) (h : HTable)
    (start goal : Node) (_hw : NonnegGraph graph)
    (hnr : ¬ Reaches graph start goal) :
    a_star graph h start goal = .ok (none, ⊤) := by
  unfold a_star
  exact aLoop_unreachable graph h goal start hnr _ _ _ _ _
    (openG_init h start) (reachOpen_init graph h start)
    (astar_fuel_bound graph h start)

theorem astar_unreachable_notfound_witness :
    NonnegGraph [] ∧ ¬ Reaches [] "S" "T" ∧
      a_star [] [] "S" "T" = .ok (none, ⊤) := by
  have hnr : ¬ Reaches ([] : Graph) "S" "T" := fun hr =>
    absurd (reaches_nil hr) (by decide)
  exact ⟨by decide, hnr, astar_unreachable_notfound [] [] "S" "T" (by decide) hnr⟩

/-- C5: for every finite graph with non-negative edge weights, cyclic or
not, the search terminates: run with the fuel `totalEdges graph + 2` (one
pop per push, each node expanded at most once thanks to the closed set) it
returns a normal result instead of exhausting the fuel. -/
theorem astar_terminates (graph : Graph) (h : HTable) (start goal : Node)
    (hw : NonnegGraph graph) : ∃ r, a_star graph h start goal = .ok r := by
  unfold a_star
  exact aLoop_total graph h goal hw _ _ _ _ _ (openG_init h start)
    (CFInv_init start) (astar_fuel_bound graph h start)

theorem astar_terminates_witness :
    NonnegGraph refGraph ∧ ∃ r, a_star refGraph refH "S" "G2" = .ok r :=
  ⟨by decide, astar_terminates refGraph refH "S" "G2" (by decide)⟩

/-- C7: on every graph with non-negative edge weights — including nodes
missing from the graph's key set or from the heuristic table — `a_star`
never raises: the `g_score[current]` subscripts are always defined, so the
result is never the `keyError` outcome; all failure is reported through the
`(None, inf)` return value. -/
theorem astar_no_exception (graph : Graph) (h : HTable) (start goal : Node)
    (_hw : NonnegGraph graph) :
    a_star graph h start goal ≠ .keyError := by
  unfold a_star
  exact aLoop_no_keyError graph h goal _ _ _ _ _ (openG_init h start)

theorem astar_no_exception_witness :
    NonnegGraph refGraph ∧ a_star refGraph refH "A" "G2" ≠ .keyError :=
  ⟨by decide, astar_no_exception refGraph refH "A" "G2" (by decide)⟩

theorem astar_zero_h_dijkstra_witness :
    (∀ n, hGet [] n = 0) ∧
      a_star refGraph [] "S" "G2" = dijkstra refGraph "S" "G2" :=
  ⟨fun _ => rfl, astar_zero_h_dijkstra refGraph [] "S" "G2" (fun _ => rfl)⟩

/-- C8: during edge relaxation the neighbor's entry is rewritten (both
`came_from` and `g_score`) and a fresh entry is pushed exactly when the
neighbor has no recorded `g_score` or the tentative cost is strictly
smaller; a tentative cost equal to (or above) the recorded one leaves the
state exactly as it was, so the first-found path of equal cost is kept. -/
theorem relax_tie_policy (h : HTable) (current : Node) (gcur : Weight)
    (st : RState) (neigh : Node) (c : Weight) :
    (dictGet? st.2.1 neigh = none →
      relaxOne h current gcur st (neigh, c) =
        relaxUpd h current gcur st (neigh, c)) ∧
    (∀ gn, dictGet? st.2.1 neigh = some gn →
      (gcur + c < gn →
        relaxOne h current gcur st (neigh, c) =
          relaxUpd h current gcur st (neigh, c)) ∧
      (gn ≤ gcur + c → relaxOne h current gcur st (neigh, c) = st)) ∧
    relaxUpd h current gcur st (neigh, c) ≠ st := by
  refine ⟨fun hg => relaxOne_upd_new h current gcur st (neigh, c) hg,
    fun gn hg => ⟨fun hlt => relaxOne_upd_lt h current gcur st (neigh, c) gn hg hlt,
      fun hle => relaxOne_skip h current gcur st (neigh, c) gn hg hle⟩, ?_⟩
  intro he
  have hlen := congrArg (fun s : RState => s.2.2.length) he
  simp only [relaxUpd, length_heappush] at hlen
  omega

theorem relax_tie_policy_witness :
    relaxOne [] "S" 1 ([("S", none)], [("A", (1 : Weight))], []) ("A", 0) =
      ([("S", none)], [("A", (1 : Weight))], []) :=
  ((relax_tie_policy [] "S" 1 ([("S", none)], [("A", (1 : Weight))], [])
    "A" 0).2.1 1 rfl).2 (by norm_num)

/-- C10: `a_star` never modifies its inputs: the variant that threads the
graph and the heuristic dicts through every read returns them unchanged
alongside the plain result — all search state is created inside the call. -/
theorem astar_frame (graph : Graph) (h : HTable) (start goal : Node) :
    a_starF graph h start goal = (a_star graph h start goal, (graph, h)) := by
  unfold a_starF a_star envHGet
  exact aLoopF_eq goal _ _ _ _ _ _

end AStarVerif
